import Mathlib

/-!
Shallow embedding of the word-relation graph traversal engine of the
vocabulary backend: the relation CRUD layer (`app/crud/relation.py`), the
relation router (`app/routers/relation.py`) and the relation endpoints
(`app/api/endpoints/relation.py`).

Conventions of the embedding:
- word ids are Python ints, modelled as `Int`;
- relation strengths (Python floats in [0,1]) are modelled as rationals,
  which keeps the multiplicative accumulation exact;
- the relational store is modelled as lists of rows in the order the store
  returns them: `db.query(..).filter(..)` becomes `List.filter`, `.first()`
  becomes `List.find?`, `.offset(s).limit(n)` becomes `drop`/`take`;
- Python sets (`visited`, `node_ids`, `seen_edges`) are modelled as
  duplicate-free lists queried with membership;
- each while loop is a fuel-indexed recursion whose fuel, computed at the
  call site, strictly exceeds the number of iterations the loop can make
  (each justification is given at the definition), so the fuel-exhaustion
  branch is never taken on the arguments the embedding supplies.
-/

/-- A row of the `words` table (`app/models/word.py`): only the fields the
traversal code reads. -/
structure Word where
  id : Int
  word : String
  deriving DecidableEq, Repr

/-- A row of the `word_relations` table (`app/models/relation.py`): only the
fields the traversal code reads. -/
structure WordRelation where
  id : Int
  source_word_id : Int
  target_word_id : Int
  strength : ℚ
  deriving DecidableEq, Repr

/-- The relational store a session reads: the `words` and `word_relations`
tables, rows listed in the order the store returns them. -/
structure Store where
  words : List Word
  relations : List WordRelation
  deriving DecidableEq, Repr

/-- The application's error taxonomy (`app/exceptions.py`):
`NotFoundException` and `ValidationException`; the HTTP layer's rejection of
an out-of-range query parameter is modelled as a validation error too. -/
inductive AppError where
  | notFound (msg : String)
  | validation (msg : String)
  deriving DecidableEq, Repr

/-- Embeds `db.query(Word).filter(Word.id == i).first()`. -/
def Store.findWord (g : Store) (i : Int) : Option Word :=
  g.words.find? fun w => decide (w.id = i)

/-- The word id `i` has a row in the `words` table. -/
def Store.hasWord (g : Store) (i : Int) : Prop :=
  ∃ w ∈ g.words, w.id = i

instance (g : Store) (i : Int) : Decidable (g.hasWord i) := by
  unfold Store.hasWord; infer_instance

/-- Embeds `get_word_all_relations` (`app/crud/relation.py` lines 96-108):
the relations in which `word_id` is source or target, windowed by
`offset(skip).limit(limit)`.  The function performs no existence check on
`word_id`. -/
def get_word_all_relations (g : Store) (word_id : Int) (skip limit : Nat) :
    List WordRelation :=
  ((g.relations.filter fun r =>
      decide (r.source_word_id = word_id ∨ r.target_word_id = word_id)).drop skip).take limit

/-- The input schema `WordRelationCreate` (`app/schemas/relation.py`): the
fields `create_relation` reads. -/
structure WordRelationCreate where
  source_word_id : Int
  target_word_id : Int
  strength : ℚ
  deriving DecidableEq, Repr

/-- Embeds `create_relation` (`app/crud/relation.py` lines 13-50).  The store
assigns the fresh primary key; it is modelled as one past the relation count
(no verified property depends on its value). -/
def create_relation (g : Store) (relation_in : WordRelationCreate) :
    Except AppError (Store × WordRelation) :=
  match g.findWord relation_in.source_word_id with
  | none => .error (.notFound "Source word not found")
  | some _ =>
    match g.findWord relation_in.target_word_id with
    | none => .error (.notFound "Target word not found")
    | some _ =>
      if relation_in.source_word_id = relation_in.target_word_id then
        .error (.validation "Source and target words cannot be the same")
      else
        match g.relations.find? fun r =>
            decide (r.source_word_id = relation_in.source_word_id ∧
                    r.target_word_id = relation_in.target_word_id) with
        | some _ => .error (.validation "Relation already exists")
        | none =>
          let relation : WordRelation :=
            { id := (g.relations.length : Int) + 1
              source_word_id := relation_in.source_word_id
              target_word_id := relation_in.target_word_id
              strength := relation_in.strength }
          .ok ({ g with relations := g.relations ++ [relation] }, relation)

/-- One pass of the `for relation in relations` loop of
`find_paths_between_words` (`app/routers/relation.py` lines 483-499): extend
`path` by each neighbor not already on it, multiplying the accumulated
strength, preserving adjacency order. -/
def extend_paths (current_id : Int) (path : List Int) (total_strength : ℚ) :
    List WordRelation → List (List Int × ℚ)
  | [] => []
  | relation :: rest =>
    let neighbor_id :=
      if relation.source_word_id = current_id then relation.target_word_id
      else relation.source_word_id
    if neighbor_id ∈ path then
      extend_paths current_id path total_strength rest
    else
      (path ++ [neighbor_id], total_strength * relation.strength) ::
        extend_paths current_id path total_strength rest

/-- The `while queue and len(paths) < max_paths` loop of
`find_paths_between_words` (`app/routers/relation.py` lines 464-499).  The
`visited` set is carried exactly as in the source, where it is written but
never read. -/
def find_paths_loop (g : Store) (end_id : Int) (max_length max_paths : Int) :
    Nat → List (List Int × ℚ) → List (List Int × ℚ) → List Int →
    List (List Int × ℚ)
  | 0, _, paths, _ => paths
  | _ + 1, [], paths, _ => paths
  | fuel + 1, (path, total_strength) :: queue, paths, visited =>
    if (paths.length : Int) < max_paths then
      if path.getLastD 0 = end_id then
        find_paths_loop g end_id max_length max_paths fuel queue
          (paths ++ [(path, total_strength)]) visited
      else if (path.length : Int) ≥ max_length then
        find_paths_loop g end_id max_length max_paths fuel queue paths visited
      else
        find_paths_loop g end_id max_length max_paths fuel
          (queue ++ extend_paths (path.getLastD 0) path total_strength
            (get_word_all_relations g (path.getLastD 0) 0 100))
          paths (visited ++ [path.getLastD 0])
    else paths

/-- Embeds `find_paths_between_words` (`app/routers/relation.py` lines
440-501).  Fuel bound: give a queue entry holding a path of `n` nodes the
weight `(b+1)^(max_length.toNat - n)` with `b = min 100 g.relations.length`;
each iteration removes one entry and enqueues at most `b` entries of strictly
smaller weight (extension happens only while `n < max_length`), so the sum of
weights drops by at least one per iteration and the iteration count is below
the initial weight `(b+1)^max_length.toNat`; the fuel strictly exceeds it. -/
def find_paths_between_words (g : Store) (start_id end_id : Int)
    (max_length max_paths : Int) : Except AppError (List (List Int × ℚ)) :=
  match g.findWord start_id with
  | none => .error (.notFound "Start word not found")
  | some _ =>
    match g.findWord end_id with
    | none => .error (.notFound "End word not found")
    | some _ =>
      .ok (find_paths_loop g end_id max_length max_paths
        ((min 100 g.relations.length + 1) ^ max_length.toNat + 1)
        [([start_id], 1)] [] [])

/-- Embeds the `find_paths` router endpoint (`app/routers/relation.py` lines
322-341) up to response shaping: FastAPI enforces the declared
query-parameter ranges (`max_length` between 1 and 10, `max_paths` between 1
and 50) before the handler body runs, rejecting out-of-range values as a
request-validation error. -/
def find_paths (g : Store) (start_id end_id : Int) (max_length max_paths : Int) :
    Except AppError (List (List Int × ℚ)) :=
  if ¬ (1 ≤ max_length ∧ max_length ≤ 10) then
    .error (.validation "max_length out of range")
  else if ¬ (1 ≤ max_paths ∧ max_paths ≤ 50) then
    .error (.validation "max_paths out of range")
  else
    find_paths_between_words g start_id end_id max_length max_paths

/-- A node of the subgraph built by `get_word_graph` (`app/crud/relation.py`):
the dict with keys `id`, `word`, `level`. -/
structure GraphNode where
  id : Int
  word : String
  level : Nat
  deriving DecidableEq, Repr

/-- An edge of the subgraph built by `get_word_graph`: the dict with keys
`source`, `target`, `relation_id`, `strength`. -/
structure GraphEdge where
  source : Int
  target : Int
  relation_id : Int
  strength : ℚ
  deriving DecidableEq, Repr

/-- The mutable state of the BFS in `get_word_graph`: the accumulators
`nodes`, `edges`, the `visited` set and the queue of (word id, level). -/
structure BfsState where
  nodes : List GraphNode
  edges : List GraphEdge
  visited : List Int
  queue : List (Int × Nat)
  deriving Repr

/-- One pass of the `for relation in relations` loop of `get_word_graph`
(`app/crud/relation.py` lines 282-323): a visited neighbor only contributes
an edge; an unvisited neighbor whose word row exists contributes a node, an
edge, a `visited` entry and a queue entry at the next level. -/
def expand_graph_node (g : Store) (current_id : Int) (level : Nat) :
    List WordRelation → BfsState → BfsState
  | [], st => st
  | relation :: rest, st =>
    let neighbor_id :=
      if relation.source_word_id = current_id then relation.target_word_id
      else relation.source_word_id
    if neighbor_id ∈ st.visited then
      expand_graph_node g current_id level rest
        { st with edges := st.edges ++ [⟨current_id, neighbor_id, relation.id, relation.strength⟩] }
    else
      match g.findWord neighbor_id with
      | none => expand_graph_node g current_id level rest st
      | some neighbor_word =>
        expand_graph_node g current_id level rest
          { nodes := st.nodes ++ [⟨neighbor_id, neighbor_word.word, level + 1⟩]
            edges := st.edges ++ [⟨current_id, neighbor_id, relation.id, relation.strength⟩]
            visited := st.visited ++ [neighbor_id]
            queue := st.queue ++ [(neighbor_id, level + 1)] }

/-- The `while queue and len(nodes) < max_nodes` loop of `get_word_graph`
(`app/crud/relation.py` lines 272-323). -/
def get_word_graph_loop (g : Store) (max_level max_nodes : Int) :
    Nat → BfsState → List GraphNode × List GraphEdge
  | 0, st => (st.nodes, st.edges)
  | fuel + 1, st =>
    match st.queue with
    | [] => (st.nodes, st.edges)
    | (current_id, level) :: queue_rest =>
      if (st.nodes.length : Int) < max_nodes then
        if (level : Int) ≥ max_level then
          get_word_graph_loop g max_level max_nodes fuel { st with queue := queue_rest }
        else
          get_word_graph_loop g max_level max_nodes fuel
            (expand_graph_node g current_id level
              (get_word_all_relations g current_id 0 100)
              { st with queue := queue_rest })
      else (st.nodes, st.edges)

/-- Embeds `get_word_graph` (`app/crud/relation.py` lines 243-328).  Fuel
bound: a node is enqueued only when it first enters `visited`, and only ids
of existing word rows are enqueued, so at most `g.words.length` queue entries
ever exist and the loop makes at most `g.words.length` iterations; the fuel
strictly exceeds that. -/
def get_word_graph (g : Store) (word_id : Int) (max_level max_nodes : Int) :
    Except AppError (List GraphNode × List GraphEdge) :=
  match g.findWord word_id with
  | none => .error (.notFound "Center word not found")
  | some center_word =>
    .ok (get_word_graph_loop g max_level max_nodes (g.words.length + 1)
      { nodes := [⟨word_id, center_word.word, 0⟩]
        edges := []
        visited := [word_id]
        queue := [(word_id, 0)] })

/-- An edge of the minimal graph built by `get_word_relations_graph`
(`app/api/endpoints/relation.py`): the dict with keys `id`, `source`,
`target`. -/
structure SimpleEdge where
  id : Int
  source : Int
  target : Int
  deriving DecidableEq, Repr

/-- The mutable state of the BFS in `get_word_relations_graph`: the
`node_ids` set, the `edges` accumulator, the `seen_edges` key set (an ordered
pair of word ids standing for the `f"{source}-{target}"` key string, with
which it is in bijection for the decimal ids the store holds), the `visited`
set and the queue of (word id, depth). -/
structure RelGraphState where
  node_ids : List Int
  edges : List SimpleEdge
  seen_edges : List (Int × Int)
  visited : List Int
  queue : List (Int × Nat)
  deriving Repr

/-- Modelled from the spec: `get_word_relations`, the Graph Accessor that
`app/api/endpoints/relation.py` imports from `app.crud.relation`, is absent
from the repository's files.  Per spec section 4.1 it returns all relations
where `word_id` is either source or target, as tuples led by the neighbor id
and the relation id (the endpoint destructures a third, unused relation-type
component, dropped here). -/
def get_word_relations (g : Store) (word_id : Int) : List (Int × Int) :=
  (g.relations.filter fun r =>
      decide (r.source_word_id = word_id ∨ r.target_word_id = word_id)).map
    fun r => (if r.source_word_id = word_id then r.target_word_id
              else r.source_word_id, r.id)

/-- One pass of the `for target_id, rel_id, rel_type in relations` loop of
`get_word_relations_graph` (`app/api/endpoints/relation.py` lines 154-184):
a neighbor whose word row is missing is skipped; otherwise its id joins
`node_ids`, and unless the edge key or its reverse was already seen the edge
is recorded and an unvisited neighbor is enqueued one level deeper. -/
def expand_relations_graph (g : Store) (current_id : Int) (current_depth : Nat) :
    List (Int × Int) → RelGraphState → RelGraphState
  | [], st => st
  | (target_id, rel_id) :: rest, st =>
    match g.findWord target_id with
    | none => expand_relations_graph g current_id current_depth rest st
    | some _ =>
      let node_ids :=
        if target_id ∈ st.node_ids then st.node_ids else st.node_ids ++ [target_id]
      if (current_id, target_id) ∈ st.seen_edges ∨
          (target_id, current_id) ∈ st.seen_edges then
        expand_relations_graph g current_id current_depth rest
          { st with node_ids := node_ids }
      else
        expand_relations_graph g current_id current_depth rest
          { node_ids := node_ids
            edges := st.edges ++ [⟨rel_id, current_id, target_id⟩]
            seen_edges := st.seen_edges ++ [(current_id, target_id)]
            visited :=
              if target_id ∈ st.visited then st.visited else st.visited ++ [target_id]
            queue :=
              if target_id ∈ st.visited then st.queue
              else st.queue ++ [(target_id, current_depth + 1)] }

/-- The `while queue` loop of `get_word_relations_graph`
(`app/api/endpoints/relation.py` lines 140-184), including the
`0 < max_edges < len(relations)` truncation. -/
def get_word_relations_graph_loop (g : Store) (depth max_edges : Int) :
    Nat → RelGraphState → List Int × List SimpleEdge
  | 0, st => (st.node_ids, st.edges)
  | fuel + 1, st =>
    match st.queue with
    | [] => (st.node_ids, st.edges)
    | (current_id, current_depth) :: queue_rest =>
      if (current_depth : Int) ≥ depth then
        get_word_relations_graph_loop g depth max_edges fuel
          { st with queue := queue_rest }
      else
        let relations := get_word_relations g current_id
        let relations :=
          if 0 < max_edges ∧ max_edges < (relations.length : Int) then
            relations.take max_edges.toNat
          else relations
        get_word_relations_graph_loop g depth max_edges fuel
          (expand_relations_graph g current_id current_depth relations
            { st with queue := queue_rest })

/-- Embeds `get_word_relations_graph` (`app/api/endpoints/relation.py` lines
118-189).  Fuel bound: as for `get_word_graph`, a node is enqueued only when
it first enters `visited` and only ids of existing word rows are enqueued, so
the loop makes at most `g.words.length` iterations. -/
def get_word_relations_graph (g : Store) (word_id : Int) (depth max_edges : Int) :
    Except AppError (List Int × List SimpleEdge) :=
  match g.findWord word_id with
  | none => .error (.notFound "单词未找到")
  | some _ =>
    .ok (get_word_relations_graph_loop g depth max_edges (g.words.length + 1)
      { node_ids := [word_id]
        edges := []
        seen_edges := []
        visited := [word_id]
        queue := [(word_id, 0)] })

/-- The word id `n` is reachable from `center` by a directed path of at most
`k` of the edges `es` (each edge an ordered (source, target) pair). -/
def ReachesWithin (es : List (Int × Int)) (center : Int) : Nat → Int → Prop
  | 0, n => n = center
  | k + 1, n => n = center ∨ ∃ p ∈ es, p.2 = n ∧ ReachesWithin es center k p.1

def decReachesWithin (es : List (Int × Int)) (center : Int) :
    (k : Nat) → (n : Int) → Decidable (ReachesWithin es center k n)
  | 0, n => decidable_of_iff (n = center) Iff.rfl
  | k + 1, n =>
    haveI : ∀ p : Int × Int, Decidable (ReachesWithin es center k p.1) :=
      fun p => decReachesWithin es center k p.1
    decidable_of_iff (n = center ∨ ∃ p ∈ es, p.2 = n ∧ ReachesWithin es center k p.1)
      Iff.rfl

instance (es : List (Int × Int)) (center : Int) (k : Nat) (n : Int) :
    Decidable (ReachesWithin es center k n) :=
  decReachesWithin es center k n

lemma reachesWithin_center (es : List (Int × Int)) (center : Int) (k : Nat) :
    ReachesWithin es center k center := by
  cases k with
  | zero => rfl
  | succ k => exact Or.inl rfl

lemma reachesWithin_succ (es : List (Int × Int)) (center : Int) :
    ∀ (k : Nat) (n : Int), ReachesWithin es center k n →
      ReachesWithin es center (k + 1) n := by
  intro k
  induction k with
  | zero => intro n h; exact Or.inl h
  | succ k ih =>
    intro n h
    rcases h with h | ⟨p, hp, hpn, hr⟩
    · exact Or.inl h
    · exact Or.inr ⟨p, hp, hpn, ih _ hr⟩

lemma reachesWithin_mono_k (es : List (Int × Int)) (center : Int) :
    ∀ {k k2 : Nat}, k ≤ k2 → ∀ {n : Int}, ReachesWithin es center k n →
      ReachesWithin es center k2 n := by
  intro k k2 hle
  induction hle with
  | refl => intro n h; exact h
  | step _ ih => intro n h; exact reachesWithin_succ es center _ n (ih h)

lemma reachesWithin_mono_edges {es es2 : List (Int × Int)} (center : Int)
    (hsub : es ⊆ es2) :
    ∀ (k : Nat) {n : Int}, ReachesWithin es center k n →
      ReachesWithin es2 center k n := by
  intro k
  induction k with
  | zero => intro n h; exact h
  | succ k ih =>
    intro n h
    rcases h with h | ⟨p, hp, hpn, hr⟩
    · exact Or.inl h
    · exact Or.inr ⟨p, hsub hp, hpn, ih hr⟩

lemma reachesWithin_edge {es : List (Int × Int)} {center m n : Int} {k : Nat}
    (h : ReachesWithin es center k m) (he : (m, n) ∈ es) :
    ReachesWithin es center (k + 1) n :=
  Or.inr ⟨(m, n), he, rfl, h⟩

/-- The relation rows `rs` link the consecutive word ids of `p` inside the
store `g`, each row usable in either direction, as the path finder walks
them. -/
def RelChain (g : Store) : List Int → List WordRelation → Prop
  | [_], [] => True
  | x :: y :: rest, r :: rs =>
    r ∈ g.relations ∧
      ((r.source_word_id = x ∧ r.target_word_id = y) ∨
        (r.target_word_id = x ∧ r.source_word_id = y)) ∧
      RelChain g (y :: rest) rs
  | _, _ => False

lemma relChain_ne_nil {g : Store} {p : List Int} {rs : List WordRelation}
    (h : RelChain g p rs) : p ≠ [] := by
  intro hp
  subst hp
  cases rs <;> simp [RelChain] at h

lemma relChain_append (g : Store) (r : WordRelation) (nb : Int)
    (hr : r ∈ g.relations) :
    ∀ (p : List Int) (rs : List WordRelation), RelChain g p rs →
      ((r.source_word_id = p.getLastD 0 ∧ r.target_word_id = nb) ∨
        (r.target_word_id = p.getLastD 0 ∧ r.source_word_id = nb)) →
      RelChain g (p ++ [nb]) (rs ++ [r]) := by
  intro p
  induction p with
  | nil => intro rs h; exact absurd h (by cases rs <;> simp [RelChain])
  | cons x xs ih =>
    intro rs h hc
    cases xs with
    | nil =>
      cases rs with
      | nil =>
        simp only [List.getLastD_cons, List.getLastD_nil] at hc
        simpa [RelChain] using And.intro hr hc
      | cons r0 rs0 => simp [RelChain] at h
    | cons y ys =>
      cases rs with
      | nil => simp [RelChain] at h
      | cons r0 rs0 =>
        obtain ⟨h1, h2, h3⟩ := h
        refine ⟨h1, h2, ?_⟩
        have hlast : (x :: y :: ys).getLastD 0 = (y :: ys).getLastD 0 := by simp
        rw [hlast] at hc
        exact ih rs0 h3 hc

lemma mem_get_word_all_relations {g : Store} {word_id : Int} {skip limit : Nat}
    {r : WordRelation} (h : r ∈ get_word_all_relations g word_id skip limit) :
    r ∈ g.relations ∧
      (r.source_word_id = word_id ∨ r.target_word_id = word_id) := by
  unfold get_word_all_relations at h
  have h1 := List.mem_of_mem_take h
  have h2 := List.mem_of_mem_drop h1
  have h3 := List.mem_filter.mp h2
  exact ⟨h3.1, of_decide_eq_true h3.2⟩

lemma mem_extend_paths {current_id : Int} {path : List Int} {s : ℚ}
    {rels : List WordRelation} {e : List Int × ℚ} :
    e ∈ extend_paths current_id path s rels →
    ∃ r ∈ rels,
      (if r.source_word_id = current_id then r.target_word_id
        else r.source_word_id) ∉ path ∧
      e = (path ++ [if r.source_word_id = current_id then r.target_word_id
                    else r.source_word_id], s * r.strength) := by
  induction rels with
  | nil => intro h; simp [extend_paths] at h
  | cons r rest ih =>
    intro h
    simp only [extend_paths] at h
    by_cases hmem : (if r.source_word_id = current_id then r.target_word_id
        else r.source_word_id) ∈ path
    · rw [if_pos hmem] at h
      obtain ⟨r2, hr2, hnot, he⟩ := ih h
      exact ⟨r2, List.mem_cons_of_mem _ hr2, hnot, he⟩
    · rw [if_neg hmem] at h
      rcases List.mem_cons.mp h with h | h
      · exact ⟨r, List.mem_cons_self _ _, hmem, h⟩
      · obtain ⟨r2, hr2, hnot, he⟩ := ih h
        exact ⟨r2, List.mem_cons_of_mem _ hr2, hnot, he⟩

/-- The one invariant engine for `find_paths_loop`: any property `Inv` of a
queue entry that the trivial facts of extension preserve holds of every
output path, together with the fact that an output path's terminal node is
`end_id`; output paths come either from the incoming `paths` accumulator or
from the queue. -/
lemma find_paths_loop_sound (g : Store) (end_id max_length max_paths : Int)
    (Inv : List Int × ℚ → Prop)
    (hstep : ∀ (path : List Int) (s : ℚ) (r : WordRelation), Inv (path, s) →
      r ∈ g.relations →
      (r.source_word_id = path.getLastD 0 ∨ r.target_word_id = path.getLastD 0) →
      ¬ ((path.length : Int) ≥ max_length) →
      (if r.source_word_id = path.getLastD 0 then r.target_word_id
        else r.source_word_id) ∉ path →
      Inv (path ++ [if r.source_word_id = path.getLastD 0 then r.target_word_id
                    else r.source_word_id], s * r.strength)) :
    ∀ (fuel : Nat) (queue paths : List (List Int × ℚ)) (visited : List Int),
      (∀ e ∈ queue, Inv e) →
      (∀ e ∈ paths, Inv e ∧ e.1.getLastD 0 = end_id) →
      ∀ e ∈ find_paths_loop g end_id max_length max_paths fuel queue paths visited,
        Inv e ∧ e.1.getLastD 0 = end_id := by
  intro fuel
  induction fuel with
  | zero =>
    intro queue paths visited _ hp e he
    exact hp e he
  | succ fuel ih =>
    intro queue paths visited hq hp e he
    match queue with
    | [] => exact hp e (by simpa [find_paths_loop] using he)
    | (path, s) :: queue_rest =>
      rw [find_paths_loop] at he
      by_cases hfull : (paths.length : Int) < max_paths
      · rw [if_pos hfull] at he
        by_cases hend : path.getLastD 0 = end_id
        · rw [if_pos hend] at he
          refine ih queue_rest _ visited (fun x hx => hq x (List.mem_cons_of_mem _ hx))
            (fun x hx => ?_) e he
          rcases List.mem_append.mp hx with hx | hx
          · exact hp x hx
          · rw [List.mem_singleton.mp hx]
            exact ⟨hq _ (List.mem_cons_self _ _), hend⟩
        · rw [if_neg hend] at he
          by_cases hlen : (path.length : Int) ≥ max_length
          · rw [if_pos hlen] at he
            exact ih queue_rest paths visited
              (fun x hx => hq x (List.mem_cons_of_mem _ hx)) hp e he
          · rw [if_neg hlen] at he
            refine ih _ paths _ (fun x hx => ?_) hp e he
            rcases List.mem_append.mp hx with hx | hx
            · exact hq x (List.mem_cons_of_mem _ hx)
            · obtain ⟨r, hr, hnot, hex⟩ := mem_extend_paths hx
              obtain ⟨hrg, hinc⟩ := mem_get_word_all_relations hr
              rw [hex]
              exact hstep path s r (hq _ (List.mem_cons_self _ _)) hrg hinc hlen hnot
      · rw [if_neg hfull] at he
        exact hp e he

lemma find_paths_between_words_ok {g : Store}
    {start_id end_id max_length max_paths : Int} {res : List (List Int × ℚ)}
    (h : find_paths_between_words g start_id end_id max_length max_paths = .ok res) :
    res = find_paths_loop g end_id max_length max_paths
      ((min 100 g.relations.length + 1) ^ max_length.toNat + 1)
      [([start_id], 1)] [] [] := by
  unfold find_paths_between_words at h
  cases hs : g.findWord start_id <;> rw [hs] at h
  · cases h
  · cases ht : g.findWord end_id <;> rw [ht] at h
    · cases h
    · exact (Except.ok.inj h).symm

/-- A store of two words with the single relation 1→2. -/
def storeAB : Store := ⟨[⟨1, "a"⟩, ⟨2, "b"⟩], [⟨10, 1, 2, 1⟩]⟩

/-- A store of three words chained 1→2→3. -/
def storeABC : Store :=
  ⟨[⟨1, "a"⟩, ⟨2, "b"⟩, ⟨3, "c"⟩], [⟨10, 1, 2, 1⟩, ⟨11, 2, 3, 1⟩]⟩

/-- A store of three words with the fan 1→2, 1→3. -/
def storeFan : Store :=
  ⟨[⟨1, "a"⟩, ⟨2, "b"⟩, ⟨3, "c"⟩], [⟨10, 1, 2, 1⟩, ⟨11, 1, 3, 1⟩]⟩

/-- A store of two words related in both directions: 1→2 and 2→1. -/
def storeCyc : Store := ⟨[⟨1, "a"⟩, ⟨2, "b"⟩], [⟨10, 1, 2, 1⟩, ⟨11, 2, 1, 1⟩]⟩

/-- C3: every path returned by `find_paths_between_words` is a simple path —
no word id appears twice in its node sequence — for every store, including
cyclic ones. -/
theorem find_paths_between_words_simple (g : Store)
    (start_id end_id max_length max_paths : Int) (res : List (List Int × ℚ))
    (h : find_paths_between_words g start_id end_id max_length max_paths = .ok res) :
    ∀ e ∈ res, e.1.Nodup := by
  intro e he
  rw [find_paths_between_words_ok h] at he
  refine (find_paths_loop_sound g end_id max_length max_paths (fun e => e.1.Nodup)
    ?_ _ _ _ _ ?_ ?_ e he).1
  · intro path s r hinv _ _ _ hnot
    rw [List.nodup_append]
    exact ⟨hinv, List.nodup_singleton _,
      fun a ha hb => hnot (by rwa [List.mem_singleton.mp hb] at ha)⟩
  · intro x hx
    rw [List.mem_singleton.mp hx]
    simp
  · intro x hx
    simp at hx

/-- The value `find_paths_between_words storeCyc 1 2 5 10` returns: two
copies of the path [1, 2], one per parallel relation, strengths written as
the products the loop forms. -/
def cycPaths : List (List Int × ℚ) := [([1, 2], 1 * 1), ([1, 2], 1 * 1)]

/-- C3 witness: on the cyclic store with relations 1→2 and 2→1, the finder
returns two copies of the simple path [1, 2], each duplicate-free. -/
theorem find_paths_between_words_simple_witness :
    (find_paths_between_words storeCyc 1 2 5 10 = Except.ok cycPaths) ∧
    (∀ e ∈ cycPaths, e.1.Nodup) :=
  ⟨rfl, find_paths_between_words_simple storeCyc 1 2 5 10 cycPaths rfl⟩

/-- C2 (amended): a returned path ends at `end_id` and either is the
single-node path `[start_id]` (hop count 0, produced when the start word is
the end word — the function has no `min_length` parameter to exclude it) or
has between 2 and `max_length` nodes, i.e. a hop count between 1 and
`max_length - 1` inclusive. -/
theorem find_paths_between_words_length_bounds (g : Store)
    (start_id end_id max_length max_paths : Int) (res : List (List Int × ℚ))
    (h : find_paths_between_words g start_id end_id max_length max_paths = .ok res) :
    ∀ e ∈ res, e.1.getLastD 0 = end_id ∧
      (e.1 = [start_id] ∨ (2 ≤ e.1.length ∧ (e.1.length : Int) ≤ max_length)) := by
  intro e he
  rw [find_paths_between_words_ok h] at he
  have := find_paths_loop_sound g end_id max_length max_paths
    (fun e => e.1 = [start_id] ∨ (2 ≤ e.1.length ∧ (e.1.length : Int) ≤ max_length))
    ?_ _ _ _ _ ?_ ?_ e he
  · exact ⟨this.2, this.1⟩
  · intro path s r hinv _ _ hlen _
    dsimp only at hinv ⊢
    right
    rw [Int.not_le] at hlen
    rcases hinv with hinv | ⟨h2, hml⟩
    · subst hinv
      simp only [List.length_append, List.length_singleton, List.length_cons,
        List.length_nil] at hlen ⊢
      omega
    · simp only [List.length_append, List.length_singleton] at hlen ⊢
      push_cast at hml hlen ⊢
      omega
  · intro x hx
    rw [List.mem_singleton.mp hx]
    left
    rfl
  · intro x hx
    simp at hx

/-- C2 counterexample: with both bounds at the claim's defaults
(`min_length = 1`, `max_length = 10`), asking for paths from word 1 to
itself returns the single-node path `[1]`, whose hop count 0 is below the
lower bound 1. -/
theorem find_paths_between_words_length_bounds_cex :
    (find_paths_between_words storeAB 1 1 10 10).map (fun l => l.map Prod.fst) =
      Except.ok [[1]] ∧
    ¬ (1 ≤ ([1] : List Int).length - 1) := by
  constructor
  · rfl
  · decide

/-- C2 witness: on the chain store 1→2→3 with `max_length = 10`, the one
returned path [1, 2, 3] ends at 3 and has 3 nodes, within the amended
bounds. -/
theorem find_paths_between_words_length_bounds_witness :
    (find_paths_between_words storeABC 1 3 10 10 =
      Except.ok [([1, 2, 3], 1 * 1 * 1)]) ∧
    (∀ e ∈ ([([1, 2, 3], 1 * 1 * 1)] : List (List Int × ℚ)),
      e.1.getLastD 0 = 3 ∧
        (e.1 = [1] ∨ (2 ≤ e.1.length ∧ (e.1.length : Int) ≤ 10))) :=
  ⟨rfl, find_paths_between_words_length_bounds storeABC 1 3 10 10
    [([1, 2, 3], 1 * 1 * 1)] rfl⟩

/-- C4: for every path the finder returns, the reported total strength is
the product of the strengths of the relation rows traversed along it — the
accumulator starts at 1, so the single-node path for source = target reports
total strength 1. -/
theorem find_paths_between_words_total_strength (g : Store)
    (start_id end_id max_length max_paths : Int) (res : List (List Int × ℚ))
    (h : find_paths_between_words g start_id end_id max_length max_paths = .ok res) :
    ∀ e ∈ res, ∃ rs : List WordRelation,
      RelChain g e.1 rs ∧ e.2 = (rs.map WordRelation.strength).prod := by
  intro e he
  rw [find_paths_between_words_ok h] at he
  refine (find_paths_loop_sound g end_id max_length max_paths
    (fun e => ∃ rs : List WordRelation,
      RelChain g e.1 rs ∧ e.2 = (rs.map WordRelation.strength).prod)
    ?_ _ _ _ _ ?_ ?_ e he).1
  · intro path s r hinv hrg hinc _ _
    dsimp only at hinv ⊢
    obtain ⟨rs, hch, hs⟩ := hinv
    refine ⟨rs ++ [r], relChain_append g r _ hrg path rs hch ?_, ?_⟩
    · by_cases hsrc : r.source_word_id = path.getLastD 0
      · rw [if_pos hsrc]
        exact Or.inl ⟨hsrc, rfl⟩
      · rw [if_neg hsrc]
        rcases hinc with hinc | hinc
        · exact absurd hinc hsrc
        · exact Or.inr ⟨hinc, rfl⟩
    · rw [hs]
      simp [List.prod_append]
  · intro x hx
    rw [List.mem_singleton.mp hx]
    exact ⟨[], trivial, rfl⟩
  · intro x hx
    simp at hx

/-- C4 witness: on the chain store 1→2→3 the single returned path [1, 2, 3]
carries the product of the two traversed strengths, and some relation chain
realizes it. -/
theorem find_paths_between_words_total_strength_witness :
    (find_paths_between_words storeABC 1 3 5 10 =
      Except.ok [([1, 2, 3], 1 * 1 * 1)]) ∧
    (∀ e ∈ ([([1, 2, 3], 1 * 1 * 1)] : List (List Int × ℚ)),
      ∃ rs : List WordRelation,
        RelChain storeABC e.1 rs ∧ e.2 = (rs.map WordRelation.strength).prod) :=
  ⟨rfl, find_paths_between_words_total_strength storeABC 1 3 5 10
    [([1, 2, 3], 1 * 1 * 1)] rfl⟩

/-- C5 (amended): the core path finder performs no bound validation — when
both endpoint words exist and `max_paths ≤ 0` it silently returns the empty
list rather than raising; nonpositive `max_paths` (and out-of-range
`max_length`) are rejected only at the HTTP layer, by the FastAPI range
constraints of the `find_paths` endpoint. -/
theorem find_paths_between_words_no_bound_validation (g : Store)
    (start_id end_id max_length max_paths : Int) (hmp : max_paths ≤ 0) :
    ((g.findWord start_id).isSome = true → (g.findWord end_id).isSome = true →
      find_paths_between_words g start_id end_id max_length max_paths =
        .ok []) ∧
    (1 ≤ max_length ∧ max_length ≤ 10 →
      find_paths g start_id end_id max_length max_paths =
        .error (.validation "max_paths out of range")) := by
  constructor
  · intro hs ht
    unfold find_paths_between_words
    obtain ⟨ws, hws⟩ := Option.isSome_iff_exists.mp hs
    obtain ⟨wt, hwt⟩ := Option.isSome_iff_exists.mp ht
    rw [hws, hwt]
    rw [find_paths_loop]
    rw [if_neg (by simp; omega)]
  · intro hml
    unfold find_paths
    rw [if_neg (by simpa using hml), if_pos (by omega)]

/-- C5 counterexample: on the store with the single relation 1→2 (so a path
from 1 to 2 exists), the invalid bound `max_paths = 0` does not raise a
validation error: the call succeeds with an empty path list,
indistinguishable from "no path exists" — with `max_paths = 1` the same call
returns the path [1, 2]. -/
theorem find_paths_between_words_no_bound_validation_cex :
    (find_paths_between_words storeAB 1 2 5 0).map (fun l => l.map Prod.fst) =
      Except.ok [] ∧
    (find_paths_between_words storeAB 1 2 5 1).map (fun l => l.map Prod.fst) =
      Except.ok [[1, 2]] := by
  constructor
  · rfl
  · rfl

/-- C5 witness: the amended statement at the concrete store with words 1, 2:
the core function yields `ok []` for `max_paths = 0` while the endpoint
wrapper rejects the same parameters. -/
theorem find_paths_between_words_no_bound_validation_witness :
    (find_paths_between_words storeAB 1 2 5 0 = .ok []) ∧
    (find_paths storeAB 1 2 5 0 =
      .error (.validation "max_paths out of range")) :=
  ⟨(find_paths_between_words_no_bound_validation storeAB 1 2 5 0
      (by decide)).1 (by decide) (by decide),
    (find_paths_between_words_no_bound_validation storeAB 1 2 5 0
      (by decide)).2 (by decide)⟩

/-- A store whose words table is empty while the relations table still holds
a row mentioning word ids 1 and 2 (a stale relation). -/
def storeOrphan : Store := ⟨[], [⟨10, 1, 2, 1⟩]⟩

/-- C6 (amended): `get_word_all_relations` raises nothing and checks no
existence: every relation it returns is a stored relation incident to
`word_id`, and with `skip = 0` and `limit` at least the number of incident
relations it returns every incident relation — whether or not `word_id`
names a stored word.  An empty result means only that no incident relation
fell in the window. -/
theorem get_word_all_relations_window (g : Store) (word_id : Int)
    (skip limit : Nat) :
    (∀ r ∈ get_word_all_relations g word_id skip limit,
      r ∈ g.relations ∧
        (r.source_word_id = word_id ∨ r.target_word_id = word_id)) ∧
    (skip = 0 →
      (g.relations.filter fun r =>
        decide (r.source_word_id = word_id ∨ r.target_word_id = word_id)).length ≤ limit →
      ∀ r ∈ g.relations,
        (r.source_word_id = word_id ∨ r.target_word_id = word_id) →
        r ∈ get_word_all_relations g word_id skip limit) := by
  constructor
  · intro r hr
    exact mem_get_word_all_relations hr
  · intro hskip hlen r hr hinc
    subst hskip
    unfold get_word_all_relations
    rw [List.drop_zero, List.take_of_length_le hlen]
    exact List.mem_filter.mpr ⟨hr, decide_eq_true hinc⟩

/-- C6 counterexample: the words table is empty, so word 1 does not exist,
yet the adjacency call raises no NotFound — it succeeds and even returns the
stale relation mentioning id 1. -/
theorem get_word_all_relations_window_cex :
    storeOrphan.findWord 1 = none ∧
    (get_word_all_relations storeOrphan 1 0 100).map WordRelation.id = [10] :=
  ⟨rfl, rfl⟩

/-- C6 witness: the amended window statement instantiated on the two-word
store at word 1 with the default window (0, 100). -/
theorem get_word_all_relations_window_witness :
    (∀ r ∈ get_word_all_relations storeAB 1 0 100,
      r ∈ storeAB.relations ∧
        (r.source_word_id = 1 ∨ r.target_word_id = 1)) ∧
    ((0 : Nat) = 0 →
      (storeAB.relations.filter fun r =>
        decide (r.source_word_id = 1 ∨ r.target_word_id = 1)).length ≤ 100 →
      ∀ r ∈ storeAB.relations,
        (r.source_word_id = 1 ∨ r.target_word_id = 1) →
        r ∈ get_word_all_relations storeAB 1 0 100) :=
  get_word_all_relations_window storeAB 1 0 100

/-- No stored relation is a self-loop. -/
def NoSelfLoops (g : Store) : Prop :=
  ∀ r ∈ g.relations, r.source_word_id ≠ r.target_word_id

/-- No ordered (source, target) word pair carries two stored relations. -/
def NoDuplicatePairs (g : Store) : Prop :=
  g.relations.Pairwise fun a b =>
    ¬ (a.source_word_id = b.source_word_id ∧ a.target_word_id = b.target_word_id)

/-- C10: `create_relation` rejects a self-loop with a validation error and
rejects an already-present ordered pair with a validation error (the word
existence checks run first, so both rejections are stated for existing
words), and a successful insertion preserves the no-self-loop and
one-relation-per-ordered-pair invariants of the stored graph. -/
theorem create_relation_guards (g : Store) (relation_in : WordRelationCreate) :
    (relation_in.source_word_id = relation_in.target_word_id →
      (g.findWord relation_in.source_word_id).isSome = true →
      create_relation g relation_in =
        .error (.validation "Source and target words cannot be the same")) ∧
    (relation_in.source_word_id ≠ relation_in.target_word_id →
      (g.findWord relation_in.source_word_id).isSome = true →
      (g.findWord relation_in.target_word_id).isSome = true →
      (∃ r ∈ g.relations, r.source_word_id = relation_in.source_word_id ∧
        r.target_word_id = relation_in.target_word_id) →
      create_relation g relation_in =
        .error (.validation "Relation already exists")) ∧
    (∀ (g2 : Store) (r : WordRelation),
      create_relation g relation_in = .ok (g2, r) →
      NoSelfLoops g → NoDuplicatePairs g →
      NoSelfLoops g2 ∧ NoDuplicatePairs g2) := by
  refine ⟨?_, ?_, ?_⟩
  · intro heq hs
    obtain ⟨ws, hws⟩ := Option.isSome_iff_exists.mp hs
    unfold create_relation
    rw [hws, ← heq, hws]
    simp
  · intro hne hs ht hdup
    obtain ⟨ws, hws⟩ := Option.isSome_iff_exists.mp hs
    obtain ⟨wt, hwt⟩ := Option.isSome_iff_exists.mp ht
    unfold create_relation
    rw [hws, hwt, if_neg hne]
    obtain ⟨r, hr, hr1, hr2⟩ := hdup
    cases hfind : g.relations.find? fun r =>
        decide (r.source_word_id = relation_in.source_word_id ∧
                r.target_word_id = relation_in.target_word_id) with
    | none =>
      have := List.find?_eq_none.mp hfind r hr
      simp [hr1, hr2] at this
    | some _ => rfl
  · intro g2 r h hself hdup
    unfold create_relation at h
    cases hws : g.findWord relation_in.source_word_id <;> rw [hws] at h
    · cases h
    · cases hwt : g.findWord relation_in.target_word_id <;> rw [hwt] at h
      · cases h
      · by_cases heq : relation_in.source_word_id = relation_in.target_word_id
        · rw [if_pos heq] at h; cases h
        · rw [if_neg heq] at h
          cases hfind : g.relations.find? fun r =>
              decide (r.source_word_id = relation_in.source_word_id ∧
                      r.target_word_id = relation_in.target_word_id) with
          | some _ => rw [hfind] at h; cases h
          | none =>
            rw [hfind] at h
            obtain ⟨hg2, -⟩ := Prod.mk.injEq .. ▸ Except.ok.inj h
            subst hg2
            constructor
            · intro r2 hr2
              rcases List.mem_append.mp hr2 with hr2 | hr2
              · exact hself r2 hr2
              · rw [List.mem_singleton.mp hr2]
                exact heq
            · rw [NoDuplicatePairs, List.pairwise_append]
              refine ⟨hdup, List.pairwise_singleton _ _, ?_⟩
              intro a ha b hb
              rw [List.mem_singleton.mp hb]
              have := List.find?_eq_none.mp hfind a ha
              simpa using this

/-- C10 witness: inserting the self-loop (1, 1) into the two-word store is
rejected with the validation error of the source. -/
theorem create_relation_guards_witness :
    create_relation storeAB ⟨1, 1, 1⟩ =
      .error (.validation "Source and target words cannot be the same") :=
  (create_relation_guards storeAB ⟨1, 1, 1⟩).1 rfl rfl

/-- C9: for both neighborhood projections, a missing center word is the only
failure: for every store and all bound values — positive, zero or negative —
the call succeeds exactly when the center word exists (nonpositive bounds
merely degenerate the result, they raise nothing). -/
theorem neighborhood_projection_total (g : Store)
    (word_id max_level max_nodes depth max_edges : Int) :
    ((get_word_graph g word_id max_level max_nodes).isOk = true ↔
      (g.findWord word_id).isSome = true) ∧
    ((get_word_relations_graph g word_id depth max_edges).isOk = true ↔
      (g.findWord word_id).isSome = true) := by
  constructor <;>
    cases h : g.findWord word_id <;>
      simp [get_word_graph, get_word_relations_graph, h, Except.isOk,
        Except.toBool]

/-- C9 witness: on the two-word store, the crud projection with nonpositive
bounds and the endpoint projection with a negative depth both succeed, and a
missing center fails. -/
theorem neighborhood_projection_total_witness :
    ((get_word_graph storeAB 1 0 0).isOk = true) ∧
    ((get_word_relations_graph storeAB 1 (-1) 0).isOk = true) ∧
    ((get_word_graph storeAB 7 3 100).isOk = false) :=
  ⟨(neighborhood_projection_total storeAB 1 0 0 (-1) 0).1.mpr rfl,
    (neighborhood_projection_total storeAB 1 3 100 (-1) 0).2.mpr rfl,
    by decide⟩

lemma expand_graph_node_nodes_length (g : Store) (current_id : Int)
    (level : Nat) :
    ∀ (rels : List WordRelation) (st : BfsState),
      (expand_graph_node g current_id level rels st).nodes.length ≤
        st.nodes.length + rels.length := by
  intro rels
  induction rels with
  | nil => intro st; simp [expand_graph_node]
  | cons r rest ih =>
    intro st
    rw [expand_graph_node]
    split <;> split <;> try split
    all_goals
      refine le_trans (ih _) ?_
      simp only [List.length_cons, List.length_append, List.length_singleton,
        List.length_nil]
      omega

lemma get_word_graph_loop_nodes_le (g : Store) (max_level max_nodes : Int) :
    ∀ (fuel : Nat) (st : BfsState),
      (st.nodes.length : Int) ≤ max_nodes + 99 →
      (((get_word_graph_loop g max_level max_nodes fuel st).1.length : Int) ≤
        max_nodes + 99) := by
  intro fuel
  induction fuel with
  | zero => intro st h; exact h
  | succ fuel ih =>
    intro st h
    rw [get_word_graph_loop]
    cases hq : st.queue with
    | nil => exact h
    | cons entry queue_rest =>
      obtain ⟨current_id, level⟩ := entry
      dsimp only
      by_cases hfull : (st.nodes.length : Int) < max_nodes
      · rw [if_pos hfull]
        by_cases hlvl : (level : Int) ≥ max_level
        · rw [if_pos hlvl]
          exact ih _ h
        · rw [if_neg hlvl]
          refine ih _ ?_
          have hexp := expand_graph_node_nodes_length g current_id level
            (get_word_all_relations g current_id 0 100)
            { st with queue := queue_rest }
          have h100 : (get_word_all_relations g current_id 0 100).length ≤ 100 := by
            unfold get_word_all_relations
            exact List.length_take_le _ _
          simp only at hexp
          omega
      · rw [if_neg hfull]
        exact h

/-- C1 (amended): the subgraph `get_word_graph` returns respects the node
cap only up to the fan-out of a single expansion — its node list never
exceeds `max_nodes + 99` entries (the loop guard admits a pass only below
`max_nodes` and one pass adds at most the 100 adjacency-limited relations).
The endpoint projection `get_word_relations_graph` takes no `max_nodes`
parameter at all. -/
theorem get_word_graph_nodes_le (g : Store)
    (word_id max_level max_nodes : Int) (res : List GraphNode × List GraphEdge)
    (h : get_word_graph g word_id max_level max_nodes = .ok res)
    (hmn : 1 ≤ max_nodes) :
    (res.1.length : Int) ≤ max_nodes + 99 := by
  unfold get_word_graph at h
  cases hw : g.findWord word_id <;> rw [hw] at h
  · cases h
  · rw [← Except.ok.inj h]
    exact get_word_graph_loop_nodes_le g max_level max_nodes _ _ (by simp; omega)

/-- The value `get_word_graph storeFan 1 3 2` returns: three nodes, one more
than `max_nodes = 2` allows. -/
def fanGraph : List GraphNode × List GraphEdge :=
  ([⟨1, "a", 0⟩, ⟨2, "b", 1⟩, ⟨3, "c", 1⟩],
    [⟨1, 2, 10, 1⟩, ⟨1, 3, 11, 1⟩])

/-- C1 counterexample: on the fan store 1→2, 1→3 with `max_nodes = 2` the
returned subgraph holds the three distinct node ids 1, 2, 3 — more than
`max_nodes`. -/
theorem get_word_graph_nodes_le_cex :
    (get_word_graph storeFan 1 3 2).map (fun res => res.1.map GraphNode.id) =
      Except.ok [1, 2, 3] ∧
    ([1, 2, 3] : List Int).Nodup ∧ ¬ ((3 : Int) ≤ 2) := by
  refine ⟨rfl, by decide, by decide⟩

/-- C1 witness: the amended bound at the fan store: the three returned nodes
obey `3 ≤ 2 + 99`. -/
theorem get_word_graph_nodes_le_witness :
    (get_word_graph storeFan 1 3 2 = Except.ok fanGraph) ∧
    ((fanGraph.1.length : Int) ≤ 2 + 99) :=
  ⟨rfl, get_word_graph_nodes_le storeFan 1 3 2 fanGraph rfl (by decide)⟩

/-- The (source, target) pair of a crud subgraph edge. -/
def GraphEdge.pair (e : GraphEdge) : Int × Int := (e.source, e.target)

/-- The (source, target) pair of an endpoint subgraph edge. -/
def SimpleEdge.pair (e : SimpleEdge) : Int × Int := (e.source, e.target)

/-- The invariant the `get_word_graph` BFS maintains: the center is among
the recorded nodes, every recorded node is reachable from the center within
`B` hops of the recorded edges, and every queued node is reachable within
its queued level, which never exceeds `B`. -/
def GwInv (w : Int) (B : Nat) (st : BfsState) : Prop :=
  (∃ nd ∈ st.nodes, nd.id = w) ∧
  (∀ nd ∈ st.nodes,
    ReachesWithin (st.edges.map GraphEdge.pair) w B nd.id) ∧
  (∀ q ∈ st.queue,
    ReachesWithin (st.edges.map GraphEdge.pair) w q.2 q.1 ∧ q.2 ≤ B)

lemma reachesWithin_append_right {es es2 : List (Int × Int)} (w : Int)
    (k : Nat) {n : Int} :
    ReachesWithin es w k n → ReachesWithin (es ++ es2) w k n :=
  reachesWithin_mono_edges w (List.subset_append_left _ _) k

lemma gwInv_expand (g : Store) (w : Int) (B : Nat) (current_id : Int)
    (level : Nat) (hd : level + 1 ≤ B) :
    ∀ (rels : List WordRelation) (st : BfsState),
      GwInv w B st →
      ReachesWithin (st.edges.map GraphEdge.pair) w level current_id →
      GwInv w B (expand_graph_node g current_id level rels st) := by
  intro rels
  induction rels with
  | nil => intro st hinv _; simpa [expand_graph_node] using hinv
  | cons r rest ih =>
    intro st hinv hcur
    obtain ⟨hw, hnodes, hqueue⟩ := hinv
    rw [expand_graph_node]
    set nb := if r.source_word_id = current_id then r.target_word_id
      else r.source_word_id with hnb
    by_cases hv : nb ∈ st.visited
    · rw [if_pos hv]
      refine ih _ ⟨hw, ?_, ?_⟩ ?_ <;> dsimp only <;> rw [List.map_append]
      · intro nd hnd
        exact reachesWithin_append_right w _ (hnodes nd hnd)
      · intro q hq
        exact ⟨reachesWithin_append_right w _ (hqueue q hq).1, (hqueue q hq).2⟩
      · exact reachesWithin_append_right w _ hcur
    · rw [if_neg hv]
      cases hword : g.findWord nb with
      | none => exact ih _ ⟨hw, hnodes, hqueue⟩ hcur
      | some neighbor_word =>
        refine ih _ ⟨?_, ?_, ?_⟩ ?_ <;> dsimp only <;>
          try rw [List.map_append]
        · obtain ⟨nd, hnd, hnd2⟩ := hw
          exact ⟨nd, List.mem_append_left _ hnd, hnd2⟩
        · intro nd hnd
          rcases List.mem_append.mp hnd with hnd | hnd
          · exact reachesWithin_append_right w _ (hnodes nd hnd)
          · rw [List.mem_singleton.mp hnd]
            refine reachesWithin_mono_k _ w hd ?_
            refine reachesWithin_edge (reachesWithin_append_right w _ hcur) ?_
            exact List.mem_append_right _ (by simp [GraphEdge.pair])
        · intro q hq
          rcases List.mem_append.mp hq with hq | hq
          · exact ⟨reachesWithin_append_right w _ (hqueue q hq).1,
              (hqueue q hq).2⟩
          · rw [List.mem_singleton.mp hq]
            refine ⟨reachesWithin_edge
              (reachesWithin_append_right w _ hcur) ?_, hd⟩
            exact List.mem_append_right _ (by simp [GraphEdge.pair])
        · exact reachesWithin_append_right w _ hcur

lemma get_word_graph_loop_reach (g : Store) (w : Int)
    (max_level max_nodes : Int) (B : Nat)
    (hB : ∀ lvl : Nat, (lvl : Int) < max_level → lvl + 1 ≤ B) :
    ∀ (fuel : Nat) (st : BfsState), GwInv w B st →
      (∃ nd ∈ (get_word_graph_loop g max_level max_nodes fuel st).1, nd.id = w) ∧
      (∀ nd ∈ (get_word_graph_loop g max_level max_nodes fuel st).1,
        ReachesWithin
          ((get_word_graph_loop g max_level max_nodes fuel st).2.map
            GraphEdge.pair) w B nd.id) := by
  intro fuel
  induction fuel with
  | zero =>
    intro st h
    rw [get_word_graph_loop]
    exact ⟨h.1, h.2.1⟩
  | succ fuel ih =>
    intro st h
    rw [get_word_graph_loop]
    cases hq : st.queue with
    | nil => exact ⟨h.1, h.2.1⟩
    | cons entry queue_rest =>
      obtain ⟨current_id, level⟩ := entry
      dsimp only
      by_cases hfull : (st.nodes.length : Int) < max_nodes
      · rw [if_pos hfull]
        by_cases hlvl : (level : Int) ≥ max_level
        · rw [if_pos hlvl]
          exact ih _ ⟨h.1, h.2.1,
            fun q hq2 => h.2.2 q (by rw [hq]; exact List.mem_cons_of_mem _ hq2)⟩
        · rw [if_neg hlvl]
          refine ih _ (gwInv_expand g w B current_id level
            (hB level (lt_of_not_ge hlvl)) _ _
            ⟨h.1, h.2.1,
              fun q hq2 => h.2.2 q (by rw [hq]; exact List.mem_cons_of_mem _ hq2)⟩
            ?_)
          exact (h.2.2 (current_id, level)
            (by rw [hq]; exact List.mem_cons_self _ _)).1
      · rw [if_neg hfull]
        exact ⟨h.1, h.2.1⟩

/-- No pair of recorded endpoint edges runs between the same two nodes in
opposite directions. -/
def NoReverse (edges : List SimpleEdge) : Prop :=
  edges.Pairwise fun a b => ¬ (a.source = b.target ∧ a.target = b.source)

/-- The invariant the `get_word_relations_graph` BFS maintains: the center is
recorded; every recorded node id is reachable from the center within `B`
hops of the recorded edges; `seen_edges` is exactly the key set of the
recorded edges; edge endpoints are recorded node ids; no reverse-direction
duplicate is recorded; and every queued node is a recorded node id reachable
within its queued depth, which never exceeds `B`. -/
def RgInv (w : Int) (B : Nat) (st : RelGraphState) : Prop :=
  w ∈ st.node_ids ∧
  (∀ n ∈ st.node_ids, ReachesWithin (st.edges.map SimpleEdge.pair) w B n) ∧
  (∀ e ∈ st.edges, (e.source, e.target) ∈ st.seen_edges) ∧
  (∀ p ∈ st.seen_edges, ∃ e ∈ st.edges, e.source = p.1 ∧ e.target = p.2) ∧
  (∀ e ∈ st.edges, e.source ∈ st.node_ids ∧ e.target ∈ st.node_ids) ∧
  NoReverse st.edges ∧
  (∀ q ∈ st.queue,
    ReachesWithin (st.edges.map SimpleEdge.pair) w q.2 q.1 ∧
      q.2 ≤ B ∧ q.1 ∈ st.node_ids)

lemma reachesWithin_map_append {A : Type} (pair : A → Int × Int)
    (es es2 : List A) (w : Int) (k : Nat) {n : Int} :
    ReachesWithin (es.map pair) w k n →
    ReachesWithin ((es ++ es2).map pair) w k n := by
  rw [List.map_append]
  exact reachesWithin_mono_edges w (List.subset_append_left _ _) k

lemma rgInv_expand (g : Store) (w : Int) (B : Nat) (current_id : Int)
    (current_depth : Nat) (hd : current_depth + 1 ≤ B) :
    ∀ (rels : List (Int × Int)) (st : RelGraphState),
      RgInv w B st →
      ReachesWithin (st.edges.map SimpleEdge.pair) w current_depth current_id →
      current_id ∈ st.node_ids →
      RgInv w B (expand_relations_graph g current_id current_depth rels st) := by
  intro rels
  induction rels with
  | nil => intro st hinv _ _; simpa [expand_relations_graph] using hinv
  | cons p rest ih =>
    obtain ⟨target_id, rel_id⟩ := p
    intro st hinv hcur hmem
    obtain ⟨h1, h2, h3, h4, h5, h6, h7⟩ := hinv
    rw [expand_relations_graph]
    cases hword : g.findWord target_id with
    | none => exact ih st ⟨h1, h2, h3, h4, h5, h6, h7⟩ hcur hmem
    | some _ =>
      set nids := if target_id ∈ st.node_ids then st.node_ids
        else st.node_ids ++ [target_id] with hnids
      have hsub : ∀ a : Int, a ∈ st.node_ids → a ∈ nids := by
        intro a ha
        rw [hnids]
        split
        · exact ha
        · exact List.mem_append_left _ ha
      have htmem : target_id ∈ nids := by
        rw [hnids]
        split
        · assumption
        · exact List.mem_append_right _ (List.mem_singleton_self _)
      have hcases : ∀ a : Int, a ∈ nids → a ∈ st.node_ids ∨ a = target_id := by
        intro a ha
        rw [hnids] at ha
        by_cases h0 : target_id ∈ st.node_ids
        · rw [if_pos h0] at ha
          exact Or.inl ha
        · rw [if_neg h0] at ha
          rcases List.mem_append.mp ha with ha | ha
          · exact Or.inl ha
          · exact Or.inr (List.mem_singleton.mp ha)
      by_cases hseen : (current_id, target_id) ∈ st.seen_edges ∨
          (target_id, current_id) ∈ st.seen_edges
      · rw [if_pos hseen]
        refine ih _ ⟨hsub w h1, ?_, h3, h4,
          fun e he => ⟨hsub _ (h5 e he).1, hsub _ (h5 e he).2⟩, h6,
          fun q hq => ⟨(h7 q hq).1, (h7 q hq).2.1, hsub _ (h7 q hq).2.2⟩⟩
          hcur (hsub _ hmem)
        intro n hn
        rcases hcases n hn with hn | rfl
        · exact h2 n hn
        · rcases hseen with hseen | hseen
          · obtain ⟨e, he, he1, he2⟩ := h4 _ hseen
            refine reachesWithin_mono_k _ w hd (reachesWithin_edge hcur ?_)
            exact List.mem_map.mpr ⟨e, he, by simp [SimpleEdge.pair, he1, he2]⟩
          · obtain ⟨e, he, he1, -⟩ := h4 _ hseen
            have he1' : e.source = n := he1
            exact h2 n (he1' ▸ (h5 e he).1)
      · rw [if_neg hseen]
        refine ih _ ⟨hsub w h1, ?_, ?_, ?_, ?_, ?_, ?_⟩
          (reachesWithin_map_append SimpleEdge.pair st.edges _ w _ hcur)
          (hsub _ hmem)
        · -- every recorded node id is reachable over the extended edge list
          intro n hn
          rcases hcases n hn with hn | rfl
          · exact reachesWithin_map_append SimpleEdge.pair st.edges _ w _
              (h2 n hn)
          · refine reachesWithin_mono_k _ w hd (reachesWithin_edge
              (reachesWithin_map_append SimpleEdge.pair st.edges _ w _ hcur) ?_)
            exact List.mem_map.mpr
              ⟨⟨rel_id, current_id, n⟩,
                List.mem_append_right _ (List.mem_singleton_self _), rfl⟩
        · -- every extended edge's key is in the extended seen set
          intro e he
          rcases List.mem_append.mp he with he | he
          · exact List.mem_append_left _ (h3 e he)
          · rw [List.mem_singleton.mp he]
            exact List.mem_append_right _ (List.mem_singleton_self _)
        · -- every extended seen key names an extended edge
          intro q hq
          rcases List.mem_append.mp hq with hq | hq
          · obtain ⟨e, he, he1, he2⟩ := h4 q hq
            exact ⟨e, List.mem_append_left _ he, he1, he2⟩
          · rw [List.mem_singleton.mp hq]
            exact ⟨⟨rel_id, current_id, target_id⟩,
              List.mem_append_right _ (List.mem_singleton_self _), rfl, rfl⟩
        · -- extended edge endpoints are recorded node ids
          intro e he
          rcases List.mem_append.mp he with he | he
          · exact ⟨hsub _ (h5 e he).1, hsub _ (h5 e he).2⟩
          · rw [List.mem_singleton.mp he]
            exact ⟨hsub _ hmem, htmem⟩
        · -- recording the new edge cannot create a reverse duplicate
          refine List.pairwise_append.mpr ⟨h6, List.pairwise_singleton _ _, ?_⟩
          intro a ha b hb
          rw [List.mem_singleton.mp hb]
          rintro ⟨ha1, ha2⟩
          have hkey := h3 a ha
          rw [ha1, ha2] at hkey
          exact hseen (Or.inr hkey)
        · -- queued entries, including the possibly enqueued fresh neighbor
          intro q hq
          have hq2 : q ∈ (if target_id ∈ st.visited then st.queue
              else st.queue ++ [(target_id, current_depth + 1)]) := hq
          by_cases hvis : target_id ∈ st.visited
          · rw [if_pos hvis] at hq2
            exact ⟨reachesWithin_map_append SimpleEdge.pair st.edges _ w _
              (h7 q hq2).1, (h7 q hq2).2.1, hsub _ (h7 q hq2).2.2⟩
          · rw [if_neg hvis] at hq2
            rcases List.mem_append.mp hq2 with hq2 | hq2
            · exact ⟨reachesWithin_map_append SimpleEdge.pair st.edges _ w _
                (h7 q hq2).1, (h7 q hq2).2.1, hsub _ (h7 q hq2).2.2⟩
            · rw [List.mem_singleton.mp hq2]
              refine ⟨reachesWithin_edge
                (reachesWithin_map_append SimpleEdge.pair st.edges _ w _ hcur)
                ?_, hd, htmem⟩
              exact List.mem_map.mpr
                ⟨⟨rel_id, current_id, target_id⟩,
                  List.mem_append_right _ (List.mem_singleton_self _), rfl⟩

lemma get_word_relations_graph_loop_inv (g : Store) (w : Int)
    (depth max_edges : Int) (B : Nat)
    (hB : ∀ lvl : Nat, (lvl : Int) < depth → lvl + 1 ≤ B) :
    ∀ (fuel : Nat) (st : RelGraphState), RgInv w B st →
      w ∈ (get_word_relations_graph_loop g depth max_edges fuel st).1 ∧
      (∀ n ∈ (get_word_relations_graph_loop g depth max_edges fuel st).1,
        ReachesWithin
          ((get_word_relations_graph_loop g depth max_edges fuel st).2.map
            SimpleEdge.pair) w B n) ∧
      NoReverse (get_word_relations_graph_loop g depth max_edges fuel st).2 := by
  intro fuel
  induction fuel with
  | zero =>
    intro st h
    rw [get_word_relations_graph_loop]
    exact ⟨h.1, h.2.1, h.2.2.2.2.2.1⟩
  | succ fuel ih =>
    intro st h
    obtain ⟨h1, h2, h3, h4, h5, h6, h7⟩ := h
    rw [get_word_relations_graph_loop]
    cases hq : st.queue with
    | nil => exact ⟨h1, h2, h6⟩
    | cons entry queue_rest =>
      obtain ⟨current_id, current_depth⟩ := entry
      dsimp only
      by_cases hlvl : (current_depth : Int) ≥ depth
      · rw [if_pos hlvl]
        exact ih _ ⟨h1, h2, h3, h4, h5, h6,
          fun q hq2 => h7 q (by rw [hq]; exact List.mem_cons_of_mem _ hq2)⟩
      · rw [if_neg hlvl]
        have hhead := h7 (current_id, current_depth)
          (by rw [hq]; exact List.mem_cons_self _ _)
        exact ih _ (rgInv_expand g w B current_id current_depth
          (hB current_depth (lt_of_not_ge hlvl)) _ _
          ⟨h1, h2, h3, h4, h5, h6,
            fun q hq2 => h7 q (by rw [hq]; exact List.mem_cons_of_mem _ hq2)⟩
          hhead.1 hhead.2.2)

lemma get_word_relations_graph_ok {g : Store} {word_id depth max_edges : Int}
    {res : List Int × List SimpleEdge}
    (h : get_word_relations_graph g word_id depth max_edges = .ok res) :
    res = get_word_relations_graph_loop g depth max_edges (g.words.length + 1)
      { node_ids := [word_id]
        edges := []
        seen_edges := []
        visited := [word_id]
        queue := [(word_id, 0)] } := by
  unfold get_word_relations_graph at h
  cases hw : g.findWord word_id <;> rw [hw] at h
  · cases h
  · exact (Except.ok.inj h).symm

lemma rgInv_initial (w : Int) (B : Nat) :
    RgInv w B
      { node_ids := [w]
        edges := []
        seen_edges := []
        visited := [w]
        queue := [(w, 0)] } := by
  refine ⟨List.mem_singleton_self _, ?_, ?_, ?_, ?_, ?_, ?_⟩
  · intro n hn
    rw [List.mem_singleton.mp hn]
    exact reachesWithin_center _ w B
  · intro e he; simp at he
  · intro p hp; simp at hp
  · intro e he; simp at he
  · exact List.Pairwise.nil
  · intro q hq
    rw [List.mem_singleton.mp hq]
    exact ⟨reachesWithin_center _ w 0, Nat.zero_le _, List.mem_singleton_self _⟩

/-- C7 (amended, endpoint projection): in every subgraph
`get_word_relations_graph` returns, no two recorded edges connect the same
two nodes in opposite directions — the seen-key check suppresses a reverse
duplicate. -/
theorem get_word_relations_graph_no_reverse (g : Store)
    (word_id depth max_edges : Int) (res : List Int × List SimpleEdge)
    (h : get_word_relations_graph g word_id depth max_edges = .ok res) :
    NoReverse res.2 := by
  rw [get_word_relations_graph_ok h]
  exact (get_word_relations_graph_loop_inv g word_id depth max_edges
    depth.toNat (fun lvl hl => by omega) _ _
    (rgInv_initial word_id depth.toNat)).2.2

/-- C7 counterexample: the crud projection `get_word_graph` performs no edge
deduplication at all: from the single stored relation 1→2 it records both
the edge (1, 2) and, one level later, the reverse edge (2, 1). -/
theorem get_word_relations_graph_no_reverse_cex :
    (get_word_graph storeAB 1 3 100).map (fun res => res.2.map GraphEdge.pair)
      = Except.ok [(1, 2), (2, 1)] ∧
    ¬ (([((1 : Int), (2 : Int)), (2, 1)]).Pairwise
        fun a b => ¬ (a.1 = b.2 ∧ a.2 = b.1)) :=
  ⟨rfl, by decide⟩

/-- The value `get_word_relations_graph storeCyc 1 2 10` returns: although
words 1 and 2 are related in both directions, only the first-seen direction
is recorded. -/
def cycRelGraph : List Int × List SimpleEdge := ([1, 2], [⟨10, 1, 2⟩])

/-- C7 witness: on the cyclic store the endpoint projection records a single
edge, and the no-reverse-duplicate property holds of it. -/
theorem get_word_relations_graph_no_reverse_witness :
    (get_word_relations_graph storeCyc 1 2 10 = Except.ok cycRelGraph) ∧
    NoReverse cycRelGraph.2 :=
  ⟨rfl, get_word_relations_graph_no_reverse storeCyc 1 2 10 cycRelGraph rfl⟩

/-- C8: every subgraph either projection returns contains the center word's
id among its nodes, and every recorded node id is reachable from the center
within `max_level` (resp. `depth`) hops along the recorded edges. -/
theorem neighborhood_reachability :
    (∀ (g : Store) (word_id max_level max_nodes : Int)
      (res : List GraphNode × List GraphEdge),
      get_word_graph g word_id max_level max_nodes = .ok res →
      (∃ nd ∈ res.1, nd.id = word_id) ∧
      ∀ nd ∈ res.1,
        ReachesWithin (res.2.map GraphEdge.pair) word_id max_level.toNat nd.id) ∧
    (∀ (g : Store) (word_id depth max_edges : Int)
      (res : List Int × List SimpleEdge),
      get_word_relations_graph g word_id depth max_edges = .ok res →
      word_id ∈ res.1 ∧
      ∀ n ∈ res.1,
        ReachesWithin (res.2.map SimpleEdge.pair) word_id depth.toNat n) := by
  constructor
  · intro g word_id max_level max_nodes res h
    unfold get_word_graph at h
    cases hw : g.findWord word_id <;> rw [hw] at h
    · cases h
    · rw [← Except.ok.inj h]
      refine get_word_graph_loop_reach g word_id max_level max_nodes
        max_level.toNat (fun lvl hl => by omega) _ _
        ⟨⟨⟨word_id, _, 0⟩, List.mem_singleton_self _, rfl⟩, ?_, ?_⟩
      · intro nd hnd
        rw [List.mem_singleton.mp hnd]
        exact reachesWithin_center _ word_id _
      · intro q hq
        rw [List.mem_singleton.mp hq]
        exact ⟨reachesWithin_center _ word_id 0, Nat.zero_le _⟩
  · intro g word_id depth max_edges res h
    rw [get_word_relations_graph_ok h]
    have hres := get_word_relations_graph_loop_inv g word_id depth max_edges
      depth.toNat (fun lvl hl => by omega) (g.words.length + 1) _
      (rgInv_initial word_id depth.toNat)
    exact ⟨hres.1, hres.2.1⟩

/-- The value `get_word_relations_graph storeAB 1 1 10` returns. -/
def abRelGraph : List Int × List SimpleEdge := ([1, 2], [⟨10, 1, 2⟩])

/-- C8 witness: both reachability statements at concrete stores — the fan
subgraph around word 1 and the one-relation endpoint subgraph around
word 1. -/
theorem neighborhood_reachability_witness :
    ((∃ nd ∈ fanGraph.1, nd.id = 1) ∧
      ∀ nd ∈ fanGraph.1,
        ReachesWithin (fanGraph.2.map GraphEdge.pair) 1 (3 : Int).toNat nd.id) ∧
    ((1 : Int) ∈ abRelGraph.1 ∧
      ∀ n ∈ abRelGraph.1,
        ReachesWithin (abRelGraph.2.map SimpleEdge.pair) 1 (1 : Int).toNat n) :=
  ⟨neighborhood_reachability.1 storeFan 1 3 2 fanGraph rfl,
    neighborhood_reachability.2 storeAB 1 1 10 abRelGraph rfl⟩
